import Mathlib

/-!
Verification of the Stock-Vision reverse-search module (`src/reverse_search.py`)
against its specification.  The Python functions are shallowly embedded as Lean
definitions over `List Char` / `String`; stateful glue (HTTP transport, printing)
is modelled as pure outcome values.  All definitions are executable.
-/

namespace StockVision

/-! ## Dates: embedding of `format_date` (src/reverse_search.py lines 8-16)

`format_date(date_str)` returns `'N/A'` for a falsy input, otherwise tries
`datetime.fromisoformat(date_str.replace('Z', '+00:00'))` and renders the
result with `strftime('%d %b %Y')`; any parse failure returns the input
unchanged. -/

/-- A calendar date as recovered by the ISO-8601 parse (only the fields
`strftime('%d %b %Y')` consumes). -/
structure Date where
  year : Nat
  month : Nat
  day : Nat
deriving DecidableEq, Repr

/-- Numeric value of a decimal digit character. -/
def digitVal (c : Char) : Nat := c.toNat - 48

/-- Two decimal digit characters as a number. -/
def digit2 (a b : Char) : Nat := 10 * digitVal a + digitVal b

/-- Gregorian leap-year test, as `datetime` validates dates. -/
def isLeap (y : Nat) : Bool := y % 4 == 0 && (y % 100 != 0 || y % 400 == 0)

/-- Days in a month, as `datetime` validates dates. -/
def daysInMonth (y m : Nat) : Nat :=
  if m == 2 then (if isLeap y then 29 else 28)
  else if m == 4 || m == 6 || m == 9 || m == 11 then 30
  else 31

/-- Modelled from Python's `datetime.fromisoformat` time-zone tail: an offset
`HH:MM` with an optional `:SS` part, each component range-checked. -/
def tzHM : List Char → Bool
  | h1 :: h2 :: ':' :: m1 :: m2 :: rest =>
    h1.isDigit && h2.isDigit && m1.isDigit && m2.isDigit &&
    decide (digit2 h1 h2 < 24) && decide (digit2 m1 m2 < 60) &&
    (match rest with
     | [] => true
     | ':' :: s1 :: s2 :: r2 =>
       s1.isDigit && s2.isDigit && decide (digit2 s1 s2 < 60) && r2.isEmpty
     | _ => false)
  | _ => false

/-- Modelled from `datetime.fromisoformat`: an optional `+`/`-` UTC offset after
the time (the program replaces every `Z` with `+00:00` before parsing, so a
literal `Z` never reaches the parser). -/
def tzOk : List Char → Bool
  | [] => true
  | sgn :: r => (sgn == '+' || sgn == '-') && tzHM r

/-- Modelled from `datetime.fromisoformat`: a fractional-seconds part of one to
six digits, then an optional offset. -/
def fracThen (r : List Char) : Bool :=
  let ds := r.takeWhile Char.isDigit
  decide (ds.length ≠ 0) && decide (ds.length ≤ 6) && tzOk (r.dropWhile Char.isDigit)

/-- What may follow the seconds: nothing, a fraction, or an offset. -/
def afterSec : List Char → Bool
  | [] => true
  | '.' :: r => fracThen r
  | r => tzOk r

/-- What may follow the minutes: nothing, `:SS...`, or an offset. -/
def afterMin : List Char → Bool
  | [] => true
  | ':' :: s1 :: s2 :: r =>
    s1.isDigit && s2.isDigit && decide (digit2 s1 s2 < 60) && afterSec r
  | r => tzOk r

/-- What may follow the hours: nothing, `:MM...`, or an offset. -/
def afterHour : List Char → Bool
  | [] => true
  | ':' :: m1 :: m2 :: r =>
    m1.isDigit && m2.isDigit && decide (digit2 m1 m2 < 60) && afterMin r
  | r => tzOk r

/-- Modelled from `datetime.fromisoformat`: the time-of-day part `HH[:MM[:SS
[.ffffff]]][+HH:MM[:SS]]`. -/
def parseTimePart : List Char → Bool
  | h1 :: h2 :: r => h1.isDigit && h2.isDigit && decide (digit2 h1 h2 < 24) && afterHour r
  | _ => false

/-- Modelled from `datetime.fromisoformat`: after the date, either nothing or a
single separator character followed by a valid time part. -/
def timeOk : List Char → Bool
  | [] => true
  | _ :: t => parseTimePart t

/-- Modelled from Python's `datetime.fromisoformat` on the formats this program
feeds it: `YYYY-MM-DD` optionally followed by a separator and a time part, with
calendar validation; `none` models the `ValueError` the `except` clause of
`format_date` catches.  Only the date fields are kept, since
`strftime('%d %b %Y')` uses nothing else. -/
def parseIso (l : List Char) : Option Date :=
  match l with
  | y1 :: y2 :: y3 :: y4 :: s1 :: m1 :: m2 :: s2 :: d1 :: d2 :: rest =>
    if y1.isDigit && y2.isDigit && y3.isDigit && y4.isDigit && (s1 == '-') &&
       m1.isDigit && m2.isDigit && (s2 == '-') && d1.isDigit && d2.isDigit then
      let y := 100 * digit2 y1 y2 + digit2 y3 y4
      let m := digit2 m1 m2
      let d := digit2 d1 d2
      if decide (1 ≤ y) && decide (1 ≤ m) && decide (m ≤ 12) && decide (1 ≤ d) &&
         decide (d ≤ daysInMonth y m) && timeOk rest then
        some ⟨y, m, d⟩
      else none
    else none
  | _ => none

/-- The decimal digit character for `n < 10`. -/
def digitChar (n : Nat) : Char := Char.ofNat (48 + n)

/-- Fuel-driven decimal rendering of a natural number (the fuel makes the
recursion structural; `natChars` supplies enough). -/
def natCharsAux : Nat → Nat → List Char → List Char
  | 0, _, acc => acc
  | fuel + 1, n, acc =>
    if n < 10 then digitChar n :: acc
    else natCharsAux fuel (n / 10) (digitChar (n % 10) :: acc)

/-- Decimal rendering of a natural number, as Python's `str` renders it. -/
def natChars (n : Nat) : List Char := natCharsAux (n + 1) n []

/-- C-locale month abbreviations, as `strftime('%b')` renders them. -/
def monthAbbr : Nat → List Char
  | 1 => "Jan".data
  | 2 => "Feb".data
  | 3 => "Mar".data
  | 4 => "Apr".data
  | 5 => "May".data
  | 6 => "Jun".data
  | 7 => "Jul".data
  | 8 => "Aug".data
  | 9 => "Sep".data
  | 10 => "Oct".data
  | 11 => "Nov".data
  | 12 => "Dec".data
  | _ => []

/-- `strftime('%d %b %Y')`: zero-padded two-digit day, abbreviated month,
decimal year. -/
def fmtDMY (dt : Date) : String :=
  String.mk (digitChar (dt.day / 10) :: digitChar (dt.day % 10) :: ' ' ::
    (monthAbbr dt.month ++ (' ' :: natChars dt.year)))

/-- `date_str.replace('Z', '+00:00')`: every `'Z'` becomes `"+00:00"`. -/
def replaceZ : List Char → List Char
  | [] => []
  | c :: r =>
    if c == 'Z' then '+' :: '0' :: '0' :: ':' :: '0' :: '0' :: replaceZ r
    else c :: replaceZ r

/-- Embedding of `format_date` (src/reverse_search.py lines 8-16): `'N/A'` for
the empty (falsy) string, the `strftime` rendering on parse success, the input
unchanged on parse failure. -/
def formatDate (s : String) : String :=
  if s == "" then "N/A"
  else
    match parseIso (replaceZ s.data) with
    | some dt => fmtDMY dt
    | none => s

/-! ## Stream decoder (src/reverse_search.py lines 67-85)

The response body is not JSON as a whole.  The code looks for the first
occurrence of the marker `'\x7b"query":"'` (`content.find(marker)`), then scans
forward character by character keeping a brace depth counter; when a `\x7d`
brings the depth to 0 the slice `content[start_idx:i+1]` is the extracted
object text (handed to `json.loads`).  If the marker is absent, or the depth
never returns to 0, `data` stays `None` and the invocation prints the first
3000 characters of the raw body instead (lines 149-152). -/

/-- The opening brace character. -/
def lbrace : Char := '\x7b'

/-- The closing brace character. -/
def rbrace : Char := '\x7d'

/-- The fixed marker substring `'\x7b"query":"'` the decoder searches for. -/
def marker : List Char := "\x7b\"query\":\"".data

/-- Boolean prefix test (the comparison `str.find` performs at each offset). -/
def isPre : List Char → List Char → Bool
  | [], _ => true
  | _ :: _, [] => false
  | a :: as, b :: bs => a == b && isPre as bs

/-- `content.find(pat)`: index of the first occurrence of `pat` in `l`, `none`
modelling Python's `-1`. -/
def findIdx (pat : List Char) : List Char → Option Nat
  | [] => if isPre pat [] then some 0 else none
  | c :: t => if isPre pat (c :: t) then some 0 else (findIdx pat t).map (· + 1)

/-- Depth contribution of one character in the brace scan. -/
def braceDelta (c : Char) : Int :=
  if c = lbrace then 1 else if c = rbrace then -1 else 0

/-- Net brace depth over a character list. -/
def braceDepth : List Char → Int
  | [] => 0
  | c :: l => braceDelta c + braceDepth l

/-- The brace-depth scan of the loop at lines 73-83: starting with counter
`depth`, each `\x7b` increments and each `\x7d` decrements; the scan stops at
the first `\x7d` that brings the counter to 0 and returns how many characters
were consumed up to and including it (`none` when the loop runs off the end
of the body and `data` stays `None`). -/
def scanClose : List Char → Int → Option Nat
  | [], _ => none
  | c :: l, depth =>
    if c = lbrace then (scanClose l (depth + 1)).map (· + 1)
    else if c = rbrace then
      if depth - 1 = 0 then some 1 else (scanClose l (depth - 1)).map (· + 1)
    else (scanClose l depth).map (· + 1)

/-- The decoder of lines 67-83: find the marker, run the brace scan from its
position, and return the slice from the marker's start to the closing brace
inclusive; `none` models `data is None` (marker absent, or scan exhausted). -/
def decodeStream (content : List Char) : Option (List Char) :=
  match findIdx marker content with
  | none => none
  | some i =>
    match scanClose (content.drop i) 0 with
    | none => none
    | some n => some ((content.drop i).take n)

/-- Outcome of one invocation after the body arrived: either an extracted
object text (which the code then passes to `json.loads` and presents), or the
fallback that prints the first 3000 characters of the raw body. -/
inductive RunOutcome where
  | decoded (jsonStr : List Char)
  | preview (body : List Char)
deriving DecidableEq, Repr

/-- The `if data: ... else: ...` dispatch of lines 86-152 restricted to what
decides it: a successful extraction is presented, otherwise the invocation
falls back to the 3000-character raw-body preview. -/
def runBody (content : List Char) : RunOutcome :=
  match decodeStream content with
  | some j => .decoded j
  | none => .preview (content.take 3000)

/-- A balanced-brace object span: nonempty, net depth 0, and every proper
nonempty prefix has positive depth (the depth first returns to 0 exactly at
the last character). -/
def IsBalancedSpan (s : List Char) : Prop :=
  s ≠ [] ∧ braceDepth s = 0 ∧
    ∀ n : Nat, n < s.length → 0 < n → 0 < braceDepth (s.take n)

instance (s : List Char) : Decidable (IsBalancedSpan s) := by
  unfold IsBalancedSpan
  infer_instance

/-! ## HTTP status handling (src/reverse_search.py lines 62-63 and 154-156)

`response.raise_for_status()` raises `httpx.HTTPStatusError` exactly when the
status is not a success (outside 2xx); the handler prints the status code and
`e.response.text[:1000]`.  No retry occurs anywhere. -/

/-- Outcome of the status check: the body continues to the decoder, or the
invocation ends with the reported status and the first 1000 characters of the
error body. -/
inductive HttpOutcome where
  | ok (body : List Char)
  | httpError (status : Nat) (snippet : List Char)
deriving DecidableEq, Repr

/-- Embedding of `raise_for_status` plus the `except httpx.HTTPStatusError`
handler: 2xx passes the body on, anything else becomes the fatal error report
carrying the status and the 1000-character body snippet. -/
def handleStatus (status : Nat) (body : List Char) : HttpOutcome :=
  if 200 ≤ status ∧ status < 300 then .ok body
  else .httpError status (body.take 1000)

/-! ## Result normalizer (src/reverse_search.py lines 86-146)

Every field of an image object is read with `img.get(key, default)`, each with
its own default; records are processed in list order by
`for idx, img in enumerate(images, 1)`. -/

/-- A loosely-typed JSON field value as the normalizer consumes it. -/
inductive JVal where
  | str (s : String)
  | bool (b : Bool)
  | num (n : Int)
  | arr (l : List String)
  | null
deriving DecidableEq, Repr

/-- A JSON object as a key-value list (Python dict keys are unique, so
first-match lookup is exact). -/
abbrev JObj := List (String × JVal)

/-- `o.get(k, d)`: the value under `k`, or the default `d` when absent. -/
def jget (o : JObj) (k : String) (d : JVal) : JVal :=
  match o.find? (fun kv => kv.fst == k) with
  | some kv => kv.snd
  | none => d

/-- The per-image fields the presenter reads (lines 100-144), each a loose
value. -/
structure ImageRecord where
  title : JVal
  isAI : JVal
  id : JVal
  downloads : JVal
  premium : JVal
  creator : JVal
  creatorId : JVal
  mediaType : JVal
  category : JVal
  contentType : JVal
  dimensions : JVal
  creationDate : JVal
  keywords : JVal
  thumbnailUrl : JVal
deriving DecidableEq, Repr

/-- The field extraction of lines 100-141: every field is read independently
with its own default (`'N/A'`, `False`, or `''`). -/
def normalizeImage (o : JObj) : ImageRecord where
  title := jget o "title" (.str "N/A")
  isAI := jget o "isAI" (.bool false)
  id := jget o "id" (.str "N/A")
  downloads := jget o "downloads" (.str "N/A")
  premium := jget o "premium" (.str "N/A")
  creator := jget o "creator" (.str "N/A")
  creatorId := jget o "creatorId" (.str "")
  mediaType := jget o "mediaType" (.str "N/A")
  category := jget o "category" (.str "N/A")
  contentType := jget o "contentType" (.str "N/A")
  dimensions := jget o "dimensions" (.str "N/A")
  creationDate := jget o "creationDate" (.str "")
  keywords := jget o "keywords" (.str "")
  thumbnailUrl := jget o "thumbnailUrl" (.str "N/A")

/-- The record with no recoverable fields: every field at its default. -/
def defaultRecord : ImageRecord where
  title := .str "N/A"
  isAI := .bool false
  id := .str "N/A"
  downloads := .str "N/A"
  premium := .str "N/A"
  creator := .str "N/A"
  creatorId := .str ""
  mediaType := .str "N/A"
  category := .str "N/A"
  contentType := .str "N/A"
  dimensions := .str "N/A"
  creationDate := .str ""
  keywords := .str ""
  thumbnailUrl := .str "N/A"

/-- The decoded payload: `data.get('images', [])` and `data.get('usageData',
\x7b\x7d)` (lines 87-88), with the images list as a list of objects. -/
structure Payload where
  query : String
  images : List JObj
  usageData : JObj

/-- The presentation loop of lines 100-146 in list order: one normalized
record per image object, none dropped, none reordered. -/
def normalizeImages (p : Payload) : List ImageRecord :=
  p.images.map normalizeImage

/-! ## Keyword normalization (src/reverse_search.py lines 137-141)

`keywords` is either a comma-separated string or already a sequence.  The code
computes `[k.strip() for k in keywords.split(',') if k.strip()]` for a string
and passes any other value through unchanged; it displays `kw_list[:20]` and
reports `len(kw_list)`. -/

/-- The two shapes the `keywords` field takes. -/
inductive Keywords where
  | str (s : List Char)
  | seq (l : List (List Char))
deriving DecidableEq, Repr

/-- Python's `s.split(',')`: split on every comma, keeping empty pieces
(`"".split(',') == ['']`). -/
def splitComma : List Char → List (List Char)
  | [] => [[]]
  | c :: r =>
    if c == ',' then [] :: splitComma r
    else
      match splitComma r with
      | [] => [[c]]
      | h :: t => (c :: h) :: t

/-- The ASCII whitespace characters Python's `str.strip()` removes. -/
def pyWS (c : Char) : Bool :=
  c == ' ' || c == '\t' || c == '\n' || c == '\r' || c == '\x0b' || c == '\x0c'

/-- Python's `k.strip()`: drop whitespace from both ends. -/
def pyStrip (l : List Char) : List Char :=
  List.rdropWhile pyWS (l.dropWhile pyWS)

/-- `kw_list` of line 139: split/strip/filter for a string, any other value
passed through unchanged. -/
def kwList : Keywords → List (List Char)
  | .str s => ((splitComma s).map pyStrip).filter (fun k => !k.isEmpty)
  | .seq l => l

/-- The displayed prefix `kw_list[:20]` (line 140). -/
def kwDisplay (k : Keywords) : List (List Char) := (kwList k).take 20

/-- The reported count `len(kw_list)` (line 141). -/
def kwCount (k : Keywords) : Nat := (kwList k).length

/-! ## Request builder (src/reverse_search.py lines 24-31)

The URL is built as `base + quote_plus(query)`, then `&generative_ai=only`
when `ai_only`, then `&page={page}` when `page > 1`, then always
`&_rsc=1gn38`. -/

/-- The characters `urllib.parse.quote_plus` never encodes: ASCII
alphanumerics and `_.-~`. -/
def isSafeChar (c : Char) : Bool :=
  c.isAlphanum || c == '-' || c == '_' || c == '.' || c == '~'

/-- Uppercase hexadecimal digit character. -/
def hexDigit (n : Nat) : Char :=
  if n < 10 then Char.ofNat (48 + n) else Char.ofNat (55 + n)

/-- The UTF-8 bytes of a character (`quote_plus` percent-encodes the UTF-8
encoding of non-safe characters). -/
def utf8Bytes (c : Char) : List Nat :=
  let n := c.toNat
  if n < 128 then [n]
  else if n < 2048 then [192 + n / 64, 128 + n % 64]
  else if n < 65536 then [224 + n / 4096, 128 + n / 64 % 64, 128 + n % 64]
  else [240 + n / 262144, 128 + n / 4096 % 64, 128 + n / 64 % 64, 128 + n % 64]

/-- Percent-encoding of one byte. -/
def pctEncode (b : Nat) : List Char := ['%', hexDigit (b / 16), hexDigit (b % 16)]

/-- `quote_plus` on one character: safe characters pass, space becomes `+`,
everything else is percent-encoded byte by byte. -/
def encodeChar (c : Char) : List Char :=
  if isSafeChar c then [c]
  else if c == ' ' then ['+']
  else (utf8Bytes c).flatMap pctEncode

/-- `urllib.parse.quote_plus(query)`. -/
def quotePlus (q : List Char) : List Char := q.flatMap encodeChar

/-- Fixed URL pieces of lines 26-31. -/
def baseUrl : List Char := "https://trackadobestock.com/search?q=".data

/-- The AI-only filter parameter. -/
def aiParam : List Char := "&generative_ai=only".data

/-- The page parameter's prefix. -/
def pagePre : List Char := "&page=".data

/-- The fixed internal protocol marker parameter. -/
def rscParam : List Char := "&_rsc=1gn38".data

/-- Decimal rendering of the page number, as the f-string renders the int. -/
def intChars (i : Int) : List Char :=
  if i < 0 then '-' :: natChars i.natAbs else natChars i.toNat

/-- Embedding of the URL construction of lines 24-31. -/
def buildUrl (query : List Char) (page : Int) (aiOnly : Bool) : List Char :=
  let u1 := baseUrl ++ quotePlus query
  let u2 := if aiOnly then u1 ++ aiParam else u1
  let u3 := if page > 1 then u2 ++ (pagePre ++ intChars page) else u2
  u3 ++ rscParam

/-- Whether characters `x` and `y` occur adjacently (in that order) in a
list: the occurrence test behind the parameter-presence arguments. -/
def hasPair (x y : Char) : List Char → Bool
  | a :: b :: rest => (a == x && b == y) || hasPair x y (b :: rest)
  | _ => false

/-! ## Theorems for the date claims -/

/-- C4: for every date string, `format_date` parses ISO-8601 (a trailing `Z`
read as UTC via the `Z` → `+00:00` replacement) into `DD Mon YYYY`; on any
parse failure the original string is returned unmodified.  In particular
`"2024-01-05T00:00:00Z"` formats to `"05 Jan 2024"` and `"not-a-date"` is
returned unchanged. -/
theorem formatDate_iso_or_unchanged :
    (∀ s : String, s ≠ "" → parseIso (replaceZ s.data) = none → formatDate s = s) ∧
    (∀ (s : String) (dt : Date), s ≠ "" → parseIso (replaceZ s.data) = some dt →
      formatDate s = fmtDMY dt) ∧
    formatDate "2024-01-05T00:00:00Z" = "05 Jan 2024" ∧
    formatDate "not-a-date" = "not-a-date" := by
  refine ⟨fun s hs hp => ?_, fun s dt hs hp => ?_, by decide, by decide⟩
  · have hb : (s == "") = false := by
      simp [String.ext_iff] at *
      intro h
      exact hs h
    simp [formatDate, hb, hp]
  · have hb : (s == "") = false := by
      simp [String.ext_iff] at *
      intro h
      exact hs h
    simp [formatDate, hb, hp]

/-- C10: the empty string (the falsy string input) maps to the sentinel
`"N/A"`, before any parse is attempted. -/
theorem formatDate_empty : formatDate "" = "N/A" := by decide

/-! ## Decoder lemmas -/

theorem braceDepth_take_succ (c : Char) (l : List Char) (n : Nat) :
    braceDepth ((c :: l).take (n + 1)) = braceDelta c + braceDepth (l.take n) := rfl

theorem scanClose_cons (c : Char) (l : List Char) (d : Int) :
    scanClose (c :: l) d =
      if c = lbrace then (scanClose l (d + 1)).map (· + 1)
      else if c = rbrace then
        (if d - 1 = 0 then some 1 else (scanClose l (d - 1)).map (· + 1))
      else (scanClose l d).map (· + 1) := rfl

theorem isPre_iff (pat l : List Char) : isPre pat l = true ↔ pat <+: l := by
  induction pat generalizing l with
  | nil => simp [isPre]
  | cons a as ih =>
    cases l with
    | nil => simp [isPre]
    | cons b bs => simp [isPre, ih]

theorem findIdx_none_of_not_infix (pat l : List Char) (h : ¬ pat <:+: l) :
    findIdx pat l = none := by
  induction l with
  | nil =>
    have : ¬ pat <+: [] := fun hp => h hp.isInfix
    simp [findIdx, (isPre_iff pat []).not.mpr this]
  | cons c t ih =>
    have h1 : ¬ pat <+: c :: t := fun hp => h hp.isInfix
    have h2 : ¬ pat <:+: t := fun hi => h (List.infix_cons_iff.mpr (Or.inr hi))
    simp [findIdx, (isPre_iff pat (c :: t)).not.mpr h1, ih h2]

theorem scanClose_spec (s : List Char) :
    ∀ d : Int, s ≠ [] → d + braceDepth s = 0 →
    (∀ n : Nat, n < s.length → 0 < d + braceDepth (s.take n)) →
    ∀ t : List Char, scanClose (s ++ t) d = some s.length := by
  induction s with
  | nil => intro d hne; exact absurd rfl hne
  | cons c s' ih =>
    intro d _ hdep hpre t
    have hd0 : 0 < d := by
      have := hpre 0 (by simp)
      simpa [braceDepth] using this
    by_cases hcl : c = lbrace
    · have hs' : s' ≠ [] := by
        intro he
        rw [he] at hdep
        simp [braceDepth, braceDelta, hcl] at hdep
        omega
      have hdelta : braceDelta c = 1 := by simp [braceDelta, hcl]
      have hrec : scanClose (s' ++ t) (d + 1) = some s'.length := by
        apply ih (d + 1) hs'
        · have : braceDepth (c :: s') = 1 + braceDepth s' := by
            simp [braceDepth, hdelta]
          omega
        · intro n hn
          have := hpre (n + 1) (by simpa using Nat.succ_lt_succ hn)
          rw [braceDepth_take_succ, hdelta] at this
          omega
      rw [List.cons_append, scanClose_cons, if_pos hcl, hrec]
      simp
    · by_cases hcr : c = rbrace
      · have hdelta : braceDelta c = -1 := by rw [hcr]; decide
        by_cases hdone : d - 1 = 0
        · have hs' : s' = [] := by
            by_contra hne'
            have h1lt : 1 < (c :: s').length := by
              cases s' with
              | nil => exact absurd rfl hne'
              | cons _ _ => simp
            have := hpre 1 h1lt
            simp [braceDepth, hdelta] at this
            omega
          subst hs'
          rw [List.cons_append, scanClose_cons, if_neg hcl, if_pos hcr, if_pos hdone]
          rfl
        · have hs' : s' ≠ [] := by
            intro he
            rw [he] at hdep
            simp [braceDepth, hdelta] at hdep
            omega
          have hrec : scanClose (s' ++ t) (d - 1) = some s'.length := by
            apply ih (d - 1) hs'
            · have : braceDepth (c :: s') = -1 + braceDepth s' := by
                simp [braceDepth, hdelta]
              omega
            · intro n hn
              have := hpre (n + 1) (by simpa using Nat.succ_lt_succ hn)
              rw [braceDepth_take_succ, hdelta] at this
              omega
          rw [List.cons_append, scanClose_cons, if_neg hcl, if_pos hcr, if_neg hdone, hrec]
          simp
      · have hdelta : braceDelta c = 0 := by simp [braceDelta, hcl, hcr]
        have hs' : s' ≠ [] := by
          intro he
          rw [he] at hdep
          simp [braceDepth, hdelta] at hdep
          omega
        have hrec : scanClose (s' ++ t) d = some s'.length := by
          apply ih d hs'
          · have : braceDepth (c :: s') = braceDepth s' := by
              simp [braceDepth, hdelta]
            omega
          · intro n hn
            have := hpre (n + 1) (by simpa using Nat.succ_lt_succ hn)
            rw [braceDepth_take_succ, hdelta] at this
            omega
        rw [List.cons_append, scanClose_cons, if_neg hcl, if_neg hcr, hrec]
        simp

theorem scanClose_balancedSpan (s t : List Char) (hb : IsBalancedSpan s)
    (hh : s.head? = some lbrace) : scanClose (s ++ t) 0 = some s.length := by
  obtain ⟨hne, hdep, hpre⟩ := hb
  cases s with
  | nil => simp at hh
  | cons c s0 =>
    have hcl : c = lbrace := by simpa using hh
    have hdelta : braceDelta c = 1 := by simp [braceDelta, hcl]
    have hdep' : braceDepth (c :: s0) = 1 + braceDepth s0 := by
      simp [braceDepth, hdelta]
    rw [hdep'] at hdep
    have hs0 : s0 ≠ [] := by
      intro he
      subst he
      simp [braceDepth] at hdep
    have hrec : scanClose (s0 ++ t) (0 + 1) = some s0.length := by
      apply scanClose_spec s0 (0 + 1) hs0
      · omega
      · intro n hn
        have := hpre (n + 1) (by simpa using Nat.succ_lt_succ hn) (Nat.succ_pos n)
        rw [braceDepth_take_succ, hdelta] at this
        omega
    rw [List.cons_append, scanClose_cons, if_pos hcl, hrec]
    simp

/-- C1: for every body of the form `pre ++ s ++ post` whose first marker
occurrence is at the start of the balanced-brace object span `s`, the
brace-depth scan first returns to depth 0 exactly at the end of `s` (never
earlier), and the decoder extracts exactly `s`, independent of the framing
text `pre` and `post`. -/
theorem decodeStream_extracts_balanced (pre s post : List Char)
    (hb : IsBalancedSpan s) (hm : marker <+: s)
    (hf : findIdx marker (pre ++ (s ++ post)) = some pre.length) :
    scanClose ((pre ++ (s ++ post)).drop pre.length) 0 = some s.length ∧
    decodeStream (pre ++ (s ++ post)) = some s := by
  have hdrop : (pre ++ (s ++ post)).drop pre.length = s ++ post :=
    List.drop_left pre (s ++ post)
  have hhead : s.head? = some lbrace := by
    obtain ⟨u, hu⟩ := hm
    rw [← hu]
    rfl
  have hscan : scanClose (s ++ post) 0 = some s.length :=
    scanClose_balancedSpan s post hb hhead
  constructor
  · rw [hdrop]; exact hscan
  · unfold decodeStream
    rw [hf]
    dsimp only
    rw [hdrop, hscan]
    dsimp only
    rw [List.take_left]

/-- Concrete instantiation of the C1 theorem: framing `"ab"` and `"tail"`
around the balanced object `'\x7b"query":""\x7d'`. -/
theorem decodeStream_extracts_balanced_witness :
    decodeStream ("ab".data ++ ("\x7b\"query\":\"\"\x7d".data ++ "tail".data)) =
      some "\x7b\"query\":\"\"\x7d".data :=
  (decodeStream_extracts_balanced "ab".data "\x7b\"query\":\"\"\x7d".data "tail".data
    (by decide) (by decide) (by decide)).2

/-- C6: when the marker substring is absent from the body, the decoder
returns `none` (payload not found, not an error) and the invocation falls
back to the preview of the first 3000 characters of the raw body. -/
theorem runBody_marker_absent (content : List Char) (h : ¬ marker <:+: content) :
    decodeStream content = none ∧
    runBody content = .preview (content.take 3000) := by
  have hf : findIdx marker content = none := findIdx_none_of_not_infix marker content h
  have hd : decodeStream content = none := by
    unfold decodeStream
    rw [hf]
  exact ⟨hd, by unfold runBody; rw [hd]⟩

/-- Concrete instantiation of the C6 theorem on a marker-free body. -/
theorem runBody_marker_absent_witness :
    runBody "redirecting to /auth/login".data =
      .preview ("redirecting to /auth/login".data.take 3000) :=
  (runBody_marker_absent "redirecting to /auth/login".data (by decide)).2

/-- C9: when the marker is present but the brace scan never returns the depth
to 0 before the body ends, no object is parsed (`none`) and the invocation
takes the same raw-body preview fallback as the marker-absent case. -/
theorem runBody_unbalanced_fallback (content : List Char) (i : Nat)
    (hf : findIdx marker content = some i)
    (hs : scanClose (content.drop i) 0 = none) :
    decodeStream content = none ∧
    runBody content = .preview (content.take 3000) := by
  have hd : decodeStream content = none := by
    unfold decodeStream
    rw [hf]
    dsimp only
    rw [hs]
  exact ⟨hd, by unfold runBody; rw [hd]⟩

/-- Concrete instantiation of the C9 theorem: the body is the marker itself,
whose single open brace never closes. -/
theorem runBody_unbalanced_fallback_witness :
    runBody "x\x7b\"query\":\"cats".data =
      .preview ("x\x7b\"query\":\"cats".data.take 3000) :=
  (runBody_unbalanced_fallback "x\x7b\"query\":\"cats".data 1 (by decide) (by decide)).2

/-! ## HTTP status theorems -/

/-- C7: a response status outside 2xx fails the invocation with an error
report carrying the status code and the response body truncated to its first
1000 characters (the single status check is fatal; no retry path exists). -/
theorem handleStatus_non2xx (status : Nat) (body : List Char)
    (h : ¬ (200 ≤ status ∧ status < 300)) :
    handleStatus status body = .httpError status (body.take 1000) := by
  unfold handleStatus
  rw [if_neg h]

/-- Concrete instantiation of the C7 theorem at status 404. -/
theorem handleStatus_non2xx_witness :
    handleStatus 404 "Not Found".data = .httpError 404 ("Not Found".data.take 1000) :=
  handleStatus_non2xx 404 "Not Found".data (by omega)

/-! ## Normalizer theorems -/

/-- C3: every field of a source image object is read independently with its
own documented default; a missing field never aborts the record or the batch
(normalization is total and length-preserving); an object with no recoverable
fields still normalizes, to the all-defaults record, and every source object
is emitted in the output. -/
theorem normalizeImage_defaults : ∀ (p : Payload) (o : JObj),
    (normalizeImages p).length = p.images.length ∧
    (o.find? (fun kv => kv.fst == "title") = none →
      (normalizeImage o).title = .str "N/A") ∧
    (o.find? (fun kv => kv.fst == "isAI") = none →
      (normalizeImage o).isAI = .bool false) ∧
    (o.find? (fun kv => kv.fst == "id") = none →
      (normalizeImage o).id = .str "N/A") ∧
    (o.find? (fun kv => kv.fst == "downloads") = none →
      (normalizeImage o).downloads = .str "N/A") ∧
    (o.find? (fun kv => kv.fst == "premium") = none →
      (normalizeImage o).premium = .str "N/A") ∧
    (o.find? (fun kv => kv.fst == "creator") = none →
      (normalizeImage o).creator = .str "N/A") ∧
    (o.find? (fun kv => kv.fst == "creatorId") = none →
      (normalizeImage o).creatorId = .str "") ∧
    (o.find? (fun kv => kv.fst == "mediaType") = none →
      (normalizeImage o).mediaType = .str "N/A") ∧
    (o.find? (fun kv => kv.fst == "category") = none →
      (normalizeImage o).category = .str "N/A") ∧
    (o.find? (fun kv => kv.fst == "contentType") = none →
      (normalizeImage o).contentType = .str "N/A") ∧
    (o.find? (fun kv => kv.fst == "dimensions") = none →
      (normalizeImage o).dimensions = .str "N/A") ∧
    (o.find? (fun kv => kv.fst == "creationDate") = none →
      (normalizeImage o).creationDate = .str "") ∧
    (o.find? (fun kv => kv.fst == "keywords") = none →
      (normalizeImage o).keywords = .str "") ∧
    (o.find? (fun kv => kv.fst == "thumbnailUrl") = none →
      (normalizeImage o).thumbnailUrl = .str "N/A") ∧
    normalizeImage [] = defaultRecord ∧
    (∀ x ∈ p.images, normalizeImage x ∈ normalizeImages p) := by
  intro p o
  refine ⟨List.length_map _ _,
    fun h => by simp [normalizeImage, jget, h],
    fun h => by simp [normalizeImage, jget, h],
    fun h => by simp [normalizeImage, jget, h],
    fun h => by simp [normalizeImage, jget, h],
    fun h => by simp [normalizeImage, jget, h],
    fun h => by simp [normalizeImage, jget, h],
    fun h => by simp [normalizeImage, jget, h],
    fun h => by simp [normalizeImage, jget, h],
    fun h => by simp [normalizeImage, jget, h],
    fun h => by simp [normalizeImage, jget, h],
    fun h => by simp [normalizeImage, jget, h],
    fun h => by simp [normalizeImage, jget, h],
    fun h => by simp [normalizeImage, jget, h],
    fun h => by simp [normalizeImage, jget, h],
    rfl,
    fun x hx => List.mem_map_of_mem normalizeImage hx⟩

/-- C8: the normalized output presents the image records in exactly the order
of the payload's images list: same length, and the record at every index is
the normalization of the source object at that index (nothing re-sorted,
reordered or dropped). -/
theorem normalizeImages_order : ∀ (p : Payload) (i : Nat),
    (normalizeImages p).length = p.images.length ∧
    (normalizeImages p)[i]? = (p.images[i]?).map normalizeImage := by
  intro p i
  exact ⟨List.length_map _ _, List.getElem?_map normalizeImage p.images i⟩

/-! ## Keyword theorems -/

theorem head?_append_of_some (r t : List Char) (c : Char) (h : r.head? = some c) :
    (r ++ t).head? = some c := by
  cases r with
  | nil => simp at h
  | cons a r' => simpa using h

theorem dropWhile_eq_self_of_head? (p : Char → Bool) (l : List Char)
    (h : ∀ c, l.head? = some c → p c = false) : List.dropWhile p l = l := by
  cases l with
  | nil => rfl
  | cons a t =>
    have := h a rfl
    simp [List.dropWhile, this]

theorem head?_dropWhile_false (p : Char → Bool) (l : List Char) :
    ∀ c, (List.dropWhile p l).head? = some c → p c = false := by
  induction l with
  | nil =>
    intro c h
    simp [List.dropWhile] at h
  | cons a t ih =>
    intro c h
    by_cases hp : p a
    · exact ih c (by simpa [List.dropWhile, hp] using h)
    · have ha : a = c := by simpa [List.dropWhile, hp] using h
      rw [← ha]
      simpa using hp

theorem dropWhile_rdropWhile_self (p : Char → Bool) (l : List Char) :
    List.dropWhile p (List.rdropWhile p (List.dropWhile p l)) =
      List.rdropWhile p (List.dropWhile p l) := by
  apply dropWhile_eq_self_of_head?
  intro c hc
  obtain ⟨t, ht⟩ := List.rdropWhile_prefix p (List.dropWhile p l)
  have hh : (List.dropWhile p l).head? = some c := by
    rw [← ht]
    exact head?_append_of_some _ _ _ hc
  exact head?_dropWhile_false p l c hh

theorem pyStrip_idem (l : List Char) : pyStrip (pyStrip l) = pyStrip l := by
  unfold pyStrip
  rw [dropWhile_rdropWhile_self]
  exact List.rdropWhile_idempotent pyWS (List.dropWhile pyWS l)

/-- C2 counterexample: the claim that normalization always yields trimmed,
non-empty entries fails for the sequence form, which the code passes through
unchanged — the sequence input `[""]` keeps its empty entry. -/
theorem kwList_counterexample :
    ¬ (∀ k : Keywords, ∀ x ∈ kwList k, x ≠ [] ∧ pyStrip x = x) := by
  intro h
  exact (h (.seq [[]]) [] (by simp [kwList])).1 rfl

/-- C2 (amended): a comma-delimited string input normalizes to an ordered
sequence of trimmed, non-empty entries — in particular `"a, b ,c"` yields
exactly `["a","b","c"]` — while a sequence input is passed through unchanged
(not trimmed or filtered); the display uses only the first 20 entries of the
normalized sequence and the reported count is the full sequence's true
length. -/
theorem kwList_normalization :
    kwList (.str "a, b ,c".data) = ["a".data, "b".data, "c".data] ∧
    (∀ s : List Char, ∀ x ∈ kwList (.str s), x ≠ [] ∧ pyStrip x = x) ∧
    (∀ l : List (List Char), kwList (.seq l) = l) ∧
    (∀ k : Keywords, kwDisplay k <+: kwList k ∧ (kwDisplay k).length ≤ 20 ∧
      kwCount k = (kwList k).length) := by
  refine ⟨by decide, ?_, fun l => rfl, fun k => ⟨?_, ?_, rfl⟩⟩
  · intro s x hx
    simp only [kwList, List.mem_filter] at hx
    obtain ⟨hmem, hne⟩ := hx
    obtain ⟨y, _, hxy⟩ := List.mem_map.mp hmem
    constructor
    · intro he
      rw [he] at hne
      simp at hne
    · rw [← hxy]
      exact pyStrip_idem y
  · exact List.take_prefix 20 (kwList k)
  · exact List.length_take_le 20 (kwList k)

/-! ## Request-builder lemmas -/

theorem hasPair_cons₂ (x y a b : Char) (t : List Char) :
    hasPair x y (a :: b :: t) = ((a == x && b == y) || hasPair x y (b :: t)) := rfl

theorem hasPair_cons_of (x y a : Char) (t : List Char) (h : hasPair x y t = true) :
    hasPair x y (a :: t) = true := by
  cases t with
  | nil => simp [hasPair] at h
  | cons b t' =>
    rw [hasPair_cons₂, h]
    simp

theorem pair_infix_hasPair (x y : Char) (l : List Char) :
    [x, y] <:+: l → hasPair x y l = true := by
  induction l with
  | nil =>
    intro h
    rcases h with ⟨s, t, hst⟩
    simp at hst
  | cons a l' ih =>
    intro h
    rcases List.infix_cons_iff.mp h with hp | hi
    · obtain ⟨u, hu⟩ := hp
      injection hu with h1 h2
      subst h1
      subst h2
      simp [List.singleton_append, hasPair_cons₂]
    · exact hasPair_cons_of x y a l' (ih hi)

theorem hasPair_of_not_mem (x y : Char) (l : List Char) (h : x ∉ l) :
    hasPair x y l = false := by
  induction l with
  | nil => rfl
  | cons a t ih =>
    cases t with
    | nil => rfl
    | cons b t' =>
      rw [hasPair_cons₂]
      have hax : (a == x) = false := by
        have : a ≠ x := fun he => h (by rw [he]; exact List.mem_cons_self x _)
        simp [this]
      have ht : hasPair x y (b :: t') = false :=
        ih (fun hm => h (List.mem_cons_of_mem a hm))
      rw [hax, ht]
      rfl

theorem getLast?_ne_of_not_mem (x : Char) (l : List Char) (h : x ∉ l) :
    ¬ l.getLast? = some x := by
  intro he
  have hx : x ∈ l.getLast? := by rw [Option.mem_def]; exact he
  obtain ⟨hne, hxe⟩ := List.mem_getLast?_eq_getLast hx
  rw [hxe] at h
  exact h (List.getLast_mem hne)

theorem hasPair_append_false (x y : Char) (b : List Char)
    (hb : hasPair x y b = false) :
    ∀ a : List Char, hasPair x y a = false →
      ¬ (a.getLast? = some x ∧ b.head? = some y) →
      hasPair x y (a ++ b) = false := by
  intro a
  induction a with
  | nil =>
    intro _ _
    simpa using hb
  | cons c as ih =>
    intro ha hbd
    cases as with
    | nil =>
      cases b with
      | nil => rfl
      | cons d bs =>
        rw [List.singleton_append, hasPair_cons₂]
        have h1 : (c == x && d == y) = false := by
          by_cases hc : c = x
          · subst hc
            have hd : ¬ d = y := fun hdy => hbd ⟨by simp, by simp [hdy]⟩
            simp [hd]
          · simp [hc]
        rw [h1, hb]
        rfl
    | cons c' as' =>
      rw [List.cons_append, List.cons_append, hasPair_cons₂]
      rw [hasPair_cons₂] at ha
      obtain ⟨h1, h2⟩ := Bool.or_eq_false_iff.mp ha
      rw [h1]
      have hbd' : ¬ ((c' :: as').getLast? = some x ∧ b.head? = some y) := by
        intro hc
        exact hbd ⟨by rw [List.getLast?_cons_cons]; exact hc.1, hc.2⟩
      have := ih h2 hbd'
      rw [List.cons_append] at this
      rw [this]
      rfl

theorem char_toNat_lt (c : Char) : c.toNat < 1114112 := by
  have hv : c.val.toNat < 55296 ∨ (57343 < c.val.toNat ∧ c.val.toNat < 1114112) := c.valid
  rcases hv with h | h
  · exact Nat.lt_trans h (by norm_num)
  · exact h.2

theorem utf8Bytes_lt (c : Char) : ∀ b ∈ utf8Bytes c, b < 256 := by
  intro b hb
  have hc := char_toNat_lt c
  unfold utf8Bytes at hb
  dsimp only at hb
  split_ifs at hb with h1 h2 h3 <;> simp at hb <;> omega

set_option maxRecDepth 4000 in
theorem amp_not_mem_pctEncode : ∀ b : Nat, b < 256 → '&' ∉ pctEncode b := by decide

theorem amp_not_mem_quotePlus (q : List Char) : '&' ∉ quotePlus q := by
  intro h
  rw [quotePlus, List.mem_flatMap] at h
  obtain ⟨c, _, hc⟩ := h
  unfold encodeChar at hc
  by_cases hs : isSafeChar c
  · rw [if_pos hs] at hc
    simp at hc
    rw [← hc] at hs
    exact absurd hs (by decide)
  · rw [if_neg hs] at hc
    by_cases hsp : c == ' '
    · rw [if_pos hsp] at hc
      exact absurd hc (by decide)
    · rw [if_neg hsp] at hc
      rw [List.mem_flatMap] at hc
      obtain ⟨b, hb, hbc⟩ := hc
      exact amp_not_mem_pctEncode b (utf8Bytes_lt c b hb) hbc

theorem amp_not_mem_natCharsAux :
    ∀ (fuel n : Nat) (acc : List Char), '&' ∉ acc → '&' ∉ natCharsAux fuel n acc := by
  have hdig : ∀ m : Nat, m < 10 → digitChar m ≠ '&' := by decide
  intro fuel
  induction fuel with
  | zero =>
    intro n acc h
    simpa [natCharsAux] using h
  | succ f ih =>
    intro n acc h
    unfold natCharsAux
    by_cases h10 : n < 10
    · rw [if_pos h10]
      intro hm
      rcases List.mem_cons.mp hm with he | hacc
      · exact hdig n h10 he.symm
      · exact h hacc
    · rw [if_neg h10]
      apply ih
      intro hm
      rcases List.mem_cons.mp hm with he | hacc
      · exact hdig (n % 10) (Nat.mod_lt n (by omega)) he.symm
      · exact h hacc

theorem amp_not_mem_natChars (n : Nat) : '&' ∉ natChars n :=
  amp_not_mem_natCharsAux (n + 1) n [] (by simp)

theorem amp_not_mem_intChars (i : Int) : '&' ∉ intChars i := by
  unfold intChars
  split_ifs with h
  · intro hm
    rcases List.mem_cons.mp hm with he | hacc
    · exact absurd he (by decide)
    · exact amp_not_mem_natChars i.natAbs hacc
  · exact amp_not_mem_natChars i.toNat

theorem hasPair_buildUrl_g (q : List Char) (p : Int) :
    hasPair '&' 'g' (buildUrl q p false) = false := by
  have hrsc : hasPair '&' 'g' rscParam = false := by decide
  have henc : hasPair '&' 'g' (quotePlus q) = false :=
    hasPair_of_not_mem _ _ _ (amp_not_mem_quotePlus q)
  by_cases hp : p > 1
  · have hp4 : hasPair '&' 'g' (intChars p ++ rscParam) = false :=
      hasPair_append_false _ _ _ hrsc (intChars p)
        (hasPair_of_not_mem _ _ _ (amp_not_mem_intChars p))
        (fun hc => getLast?_ne_of_not_mem _ _ (amp_not_mem_intChars p) hc.1)
    have hp3 : hasPair '&' 'g' (pagePre ++ (intChars p ++ rscParam)) = false :=
      hasPair_append_false _ _ _ hp4 pagePre (by decide)
        (fun hc => absurd hc.1 (by decide))
    have hp2 :
        hasPair '&' 'g' (quotePlus q ++ (pagePre ++ (intChars p ++ rscParam))) = false :=
      hasPair_append_false _ _ _ hp3 (quotePlus q) henc
        (fun hc => getLast?_ne_of_not_mem _ _ (amp_not_mem_quotePlus q) hc.1)
    have hfin :
        hasPair '&' 'g'
          (baseUrl ++ (quotePlus q ++ (pagePre ++ (intChars p ++ rscParam)))) = false :=
      hasPair_append_false _ _ _ hp2 baseUrl (by decide)
        (fun hc => absurd hc.1 (by decide))
    have hurl : buildUrl q p false =
        baseUrl ++ (quotePlus q ++ (pagePre ++ (intChars p ++ rscParam))) := by
      simp [buildUrl, hp, List.append_assoc]
    rw [hurl]
    exact hfin
  · have hp2 : hasPair '&' 'g' (quotePlus q ++ rscParam) = false :=
      hasPair_append_false _ _ _ hrsc (quotePlus q) henc
        (fun hc => getLast?_ne_of_not_mem _ _ (amp_not_mem_quotePlus q) hc.1)
    have hfin : hasPair '&' 'g' (baseUrl ++ (quotePlus q ++ rscParam)) = false :=
      hasPair_append_false _ _ _ hp2 baseUrl (by decide)
        (fun hc => absurd hc.1 (by decide))
    have hurl : buildUrl q p false = baseUrl ++ (quotePlus q ++ rscParam) := by
      simp [buildUrl, hp, List.append_assoc]
    rw [hurl]
    exact hfin

theorem hasPair_buildUrl_p (q : List Char) (p : Int) (ai : Bool) (hp : ¬ p > 1) :
    hasPair '&' 'p' (buildUrl q p ai) = false := by
  have hrsc : hasPair '&' 'p' rscParam = false := by decide
  have henc : hasPair '&' 'p' (quotePlus q) = false :=
    hasPair_of_not_mem _ _ _ (amp_not_mem_quotePlus q)
  cases ai with
  | true =>
    have hp3 : hasPair '&' 'p' (aiParam ++ rscParam) = false :=
      hasPair_append_false _ _ _ hrsc aiParam (by decide)
        (fun hc => absurd hc.1 (by decide))
    have hp2 : hasPair '&' 'p' (quotePlus q ++ (aiParam ++ rscParam)) = false :=
      hasPair_append_false _ _ _ hp3 (quotePlus q) henc
        (fun hc => getLast?_ne_of_not_mem _ _ (amp_not_mem_quotePlus q) hc.1)
    have hfin :
        hasPair '&' 'p' (baseUrl ++ (quotePlus q ++ (aiParam ++ rscParam))) = false :=
      hasPair_append_false _ _ _ hp2 baseUrl (by decide)
        (fun hc => absurd hc.1 (by decide))
    have hurl : buildUrl q p true = baseUrl ++ (quotePlus q ++ (aiParam ++ rscParam)) := by
      simp [buildUrl, hp, List.append_assoc]
    rw [hurl]
    exact hfin
  | false =>
    have hp2 : hasPair '&' 'p' (quotePlus q ++ rscParam) = false :=
      hasPair_append_false _ _ _ hrsc (quotePlus q) henc
        (fun hc => getLast?_ne_of_not_mem _ _ (amp_not_mem_quotePlus q) hc.1)
    have hfin : hasPair '&' 'p' (baseUrl ++ (quotePlus q ++ rscParam)) = false :=
      hasPair_append_false _ _ _ hp2 baseUrl (by decide)
        (fun hc => absurd hc.1 (by decide))
    have hurl : buildUrl q p false = baseUrl ++ (quotePlus q ++ rscParam) := by
      simp [buildUrl, hp, List.append_assoc]
    rw [hurl]
    exact hfin

/-- C5: request building is pure and deterministic; the URL contains the
URL-safe-encoded query, contains the AI-only filter parameter iff `aiOnly`
is requested, contains the page parameter iff `page > 1` (page 1 omitted),
and always ends with the fixed internal protocol marker parameter. -/
theorem buildUrl_params : ∀ (q : List Char) (p : Int) (ai : Bool),
    quotePlus q <:+: buildUrl q p ai ∧
    rscParam <:+ buildUrl q p ai ∧
    (aiParam <:+: buildUrl q p ai ↔ ai = true) ∧
    (pagePre <:+: buildUrl q p ai ↔ p > 1) := by
  intro q p ai
  have hpg : ['&', 'p'] <+: pagePre := ⟨"age=".data, by decide⟩
  have hag : ['&', 'g'] <+: aiParam := ⟨"enerative_ai=only".data, by decide⟩
  by_cases hai : ai = true
  · subst hai
    by_cases hp : p > 1
    · have hurl : buildUrl q p true =
          baseUrl ++ (quotePlus q ++ (aiParam ++ (pagePre ++ (intChars p ++ rscParam)))) := by
        simp [buildUrl, hp, List.append_assoc]
      refine ⟨?_, ?_, ⟨fun _ => rfl, fun _ => ?_⟩, ⟨fun _ => hp, fun _ => ?_⟩⟩
      · rw [hurl]
        exact ⟨baseUrl, aiParam ++ (pagePre ++ (intChars p ++ rscParam)), rfl⟩
      · rw [hurl]
        exact ⟨baseUrl ++ (quotePlus q ++ (aiParam ++ (pagePre ++ intChars p))),
          by simp [List.append_assoc]⟩
      · rw [hurl]
        exact ⟨baseUrl ++ quotePlus q, pagePre ++ (intChars p ++ rscParam),
          by simp [List.append_assoc]⟩
      · rw [hurl]
        exact ⟨baseUrl ++ (quotePlus q ++ aiParam), intChars p ++ rscParam,
          by simp [List.append_assoc]⟩
    · have hurl : buildUrl q p true = baseUrl ++ (quotePlus q ++ (aiParam ++ rscParam)) := by
        simp [buildUrl, hp, List.append_assoc]
      refine ⟨?_, ?_, ⟨fun _ => rfl, fun _ => ?_⟩,
        ⟨fun hin => ?_, fun hgt => absurd hgt hp⟩⟩
      · rw [hurl]
        exact ⟨baseUrl, aiParam ++ rscParam, rfl⟩
      · rw [hurl]
        exact ⟨baseUrl ++ (quotePlus q ++ aiParam), by simp [List.append_assoc]⟩
      · rw [hurl]
        exact ⟨baseUrl ++ quotePlus q, rscParam, by simp [List.append_assoc]⟩
      · have h2 : ['&', 'p'] <:+: buildUrl q p true := hpg.isInfix.trans hin
        have h3 := pair_infix_hasPair '&' 'p' (buildUrl q p true) h2
        rw [hasPair_buildUrl_p q p true hp] at h3
        simp at h3
  · have hai' : ai = false := by
      cases ai
      · rfl
      · exact absurd rfl hai
    subst hai'
    by_cases hp : p > 1
    · have hurl : buildUrl q p false =
          baseUrl ++ (quotePlus q ++ (pagePre ++ (intChars p ++ rscParam))) := by
        simp [buildUrl, hp, List.append_assoc]
      refine ⟨?_, ?_, ⟨fun hin => ?_, fun hf => by simp at hf⟩, ⟨fun _ => hp, fun _ => ?_⟩⟩
      · rw [hurl]
        exact ⟨baseUrl, pagePre ++ (intChars p ++ rscParam), rfl⟩
      · rw [hurl]
        exact ⟨baseUrl ++ (quotePlus q ++ (pagePre ++ intChars p)),
          by simp [List.append_assoc]⟩
      · have h2 : ['&', 'g'] <:+: buildUrl q p false := hag.isInfix.trans hin
        have h3 := pair_infix_hasPair '&' 'g' (buildUrl q p false) h2
        rw [hasPair_buildUrl_g q p] at h3
        simp at h3
      · rw [hurl]
        exact ⟨baseUrl ++ quotePlus q, intChars p ++ rscParam,
          by simp [List.append_assoc]⟩
    · have hurl : buildUrl q p false = baseUrl ++ (quotePlus q ++ rscParam) := by
        simp [buildUrl, hp, List.append_assoc]
      refine ⟨?_, ?_, ⟨fun hin => ?_, fun hf => by simp at hf⟩,
        ⟨fun hin => ?_, fun hgt => absurd hgt hp⟩⟩
      · rw [hurl]
        exact ⟨baseUrl, rscParam, rfl⟩
      · rw [hurl]
        exact ⟨baseUrl ++ quotePlus q, by simp [List.append_assoc]⟩
      · have h2 : ['&', 'g'] <:+: buildUrl q p false := hag.isInfix.trans hin
        have h3 := pair_infix_hasPair '&' 'g' (buildUrl q p false) h2
        rw [hasPair_buildUrl_g q p] at h3
        simp at h3
      · have h2 : ['&', 'p'] <:+: buildUrl q p false := hpg.isInfix.trans hin
        have h3 := pair_infix_hasPair '&' 'p' (buildUrl q p false) h2
        rw [hasPair_buildUrl_p q p false hp] at h3
        simp at h3

end StockVision
